import Mathlib

/-!
Shallow embedding of the elevator simulation server (`sim_server.cpp`) and
proofs about its specification.

Modelling conventions:
* C++ `double` arithmetic is embedded as exact rational arithmetic (`ℚ`);
  every constant appearing in the source (7.5, 0.15, 9.8, ...) is an exact
  decimal, so all the case analyses of the source are preserved.
* C++ `int` values (floors, directions) are embedded as `ℤ`; counters that
  the source only ever increments are embedded as `ℕ`.
* `std::chrono` time points are embedded as rationals (`now`, `stateEndTime`);
  the simulated hour (`fake_hour()`) and the random traffic draws are passed
  in as explicit parameters (`h`, `spawns`), since they come from the clock
  and the RNG, which are outside inputs of each tick.
* `std::deque` / `std::vector` become `List`; the global maps `upQ`, `downQ`,
  `pendingUpCall`, `pendingDownCall`, `gHourly` become functions updated with
  `Function.update`.
-/

set_option maxHeartbeats 1600000

namespace ElevatorSim

/-- Passenger record (struct `Passenger`): start floor, destination floor,
direction (+1 up / -1 down, internal numbering) and creation time. -/
structure Passenger where
  startFloor : ℤ
  destFloor : ℤ
  direction : ℤ
  created : ℚ
deriving DecidableEq, Repr

/-- The three states of the elevator state machine (enum `ElevatorState`). -/
inductive EState where
  | Idle
  | Moving
  | DoorOpen
deriving DecidableEq, Repr

/-- Elevator record (struct `Elevator`). -/
structure Elevator where
  id : ℕ
  currentFloor : ℤ
  targetFloor : ℤ
  direction : ℤ
  doorOpen : Bool
  state : EState
  stateEndTime : ℚ
  capacity : ℕ := 10
  onboard : List Passenger := []
  stops : List ℤ := []
  trips : ℕ := 0
  passengersMoved : ℕ := 0
  energyKWh : ℚ := 0
  doorOpenCount : ℕ := 0
  stopCount : ℕ := 0
deriving DecidableEq, Repr

/-- Hourly statistics bucket (struct `HourlyBucket`). -/
structure HourlyBucket where
  trips : ℕ := 0
  energyKWh : ℚ := 0
  totalWaitSec : ℚ := 0
  waitCount : ℕ := 0
deriving DecidableEq, Repr

/-- Global statistics (struct `GlobalStats`). -/
structure GlobalStats where
  totalTrips : ℕ := 0
  totalPassengers : ℕ := 0
  completedPassengers : ℕ := 0
  totalEnergyKWh : ℚ := 0
  totalWaitSec : ℚ := 0
  totalTripSec : ℚ := 0
  completedTrips : ℕ := 0
  totalEnergyConsumedWh : ℚ := 0
  totalEnergyRegenWh : ℚ := 0
  totalNetEnergyWh : ℚ := 0
  totalCostCAD : ℚ := 0
  costTraditionalCAD : ℚ := 0
deriving DecidableEq, Repr

/-- Global simulation environment: everything global in the source other than
the elevator list (`gFloors`, `upQ`, `downQ`, the call latches, `gStats`,
`gHourly`). -/
structure Env where
  gFloors : ℤ
  upQ : ℤ → List Passenger
  downQ : ℤ → List Passenger
  pendingUpCall : ℤ → Bool
  pendingDownCall : ℤ → Bool
  gStats : GlobalStats
  gHourly : ℕ → HourlyBucket

/-- The whole simulation world: the global environment plus `gElevators`. -/
structure World where
  env : Env
  elevators : List Elevator

/-- Travel time in seconds for a move spanning `floors` floors
(function `travel_time_sec`): one floor 7.5 s, then two 7.5 s end legs plus
7.0 s per middle floor. -/
def travel_time_sec (floors : ℕ) : ℚ :=
  if floors ≤ 1 then 7.5 else 7.5 + 7.5 + 7.0 * ((floors : ℚ) - 2)

/-- Switch-free embedding of `spawn_rate_per_min`. -/
def spawn_rate_per_min (h : ℕ) : ℚ :=
  if 7 ≤ h ∧ h < 10 then 0.25
  else if 11 ≤ h ∧ h < 14 then 0.15
  else if 16 ≤ h ∧ h < 19 then 0.30
  else 0.05

/-- MATLAB model constants (struct `MatlabParams`). -/
def floorHeight_m : ℚ := 5.0

/-- Elevator car mass in kilograms. -/
def elevatorCarMass_kg : ℚ := 500.0

/-- Counter-weight mass in kilograms. -/
def counterWeight_kg : ℚ := 1400.0

/-- Motor efficiency. -/
def motorEfficiency : ℚ := 0.85

/-- Regeneration efficiency. -/
def regenEfficiency : ℚ := 0.78

/-- Supercapacitor efficiency. -/
def supercapEfficiency : ℚ := 0.95

/-- Mass of one person in kilograms. -/
def personMass_kg : ℚ := 65.0

/-- Ontario time-of-use tariff in CAD per kWh (function
`ontario_rate_cad_per_kwh`). -/
def ontario_rate_cad_per_kwh (hour : ℕ) : ℚ :=
  if 23 ≤ hour ∨ hour < 7 then 0.028
  else if 7 ≤ hour ∧ hour < 16 then 0.122
  else if 21 ≤ hour ∧ hour < 23 then 0.122
  else 0.284

/-- Result of the energy computation (struct `EnergyResult`). -/
structure EnergyResult where
  consumedWh : ℚ
  regenWh : ℚ
  netWh : ℚ
  netMassKg : ℚ
deriving DecidableEq, Repr

/-- Energy model (function `calculateElevatorEnergyMATLAB`): net mass against
the counter-weight, distance from the floor span, and a four-way case split on
direction and sign of the net mass.  The pair holds (consumedWh, regenWh). -/
def calculateElevatorEnergyMATLAB (startFloorInternal endFloorInternal : ℤ)
    (passengerCount : ℕ) : EnergyResult :=
  let loadKg : ℚ := (passengerCount : ℚ) * personMass_kg
  let netMass : ℚ := loadKg + elevatorCarMass_kg - counterWeight_kg
  let distance : ℚ :=
    (((endFloorInternal - startFloorInternal).natAbs : ℚ)) * floorHeight_m
  let pair : ℚ × ℚ :=
    if endFloorInternal > startFloorInternal then
      if netMass > 0 then
        let potentialWh := netMass * 9.8 * distance / 3600
        (potentialWh / motorEfficiency, 0)
      else
        (distance * 0.1, 0)
    else
      if netMass > 0 then
        let potentialWh := netMass * 9.8 * distance / 3600
        if netMass > 400 then
          (potentialWh * 0.15, potentialWh * regenEfficiency * supercapEfficiency)
        else
          (potentialWh * 0.15, potentialWh * 0.5 * regenEfficiency * supercapEfficiency)
      else
        let potentialWh := |netMass| * 9.8 * distance / 3600
        (potentialWh / motorEfficiency, 0)
  { consumedWh := pair.1, regenWh := pair.2,
    netWh := pair.1 - pair.2, netMassKg := netMass }

/-- The net mass as the specification's table writes it:
`paxCount·65 + 500 − 1400`. -/
def netMass_spec (pax : ℕ) : ℚ := (pax : ℚ) * 65 + 500 - 1400

/-- The travelled distance as the specification writes it:
`|endFloor − startFloor|·5.0`. -/
def distance_spec (s e : ℤ) : ℚ := ((e - s).natAbs : ℚ) * 5.0

/-- The potential energy in Wh as the specification writes it:
`|netMass|·9.8·distance/3600`. -/
def potentialWh_spec (s e : ℤ) (pax : ℕ) : ℚ :=
  |netMass_spec pax| * 9.8 * distance_spec s e / 3600

/-- One step of the `peakHour` scan in `stats_json`: keep the running
`(peakHour, maxTrips)` pair unless this hour strictly exceeds the maximum. -/
def peakStep (trips : ℕ → ℕ) (acc : ℕ × ℕ) (h : ℕ) : ℕ × ℕ :=
  if trips h > acc.2 then (h, trips h) else acc

/-- The `peakHour` loop of `stats_json` run over hours `0..n-1`, starting from
`peakHour = 0`, `maxTrips = 0`. -/
def peakFold (trips : ℕ → ℕ) (n : ℕ) : ℕ × ℕ :=
  (List.range n).foldl (peakStep trips) (0, 0)

/-- `peakHour` as reported by `stats_json`: the scan over the 24 hourly
buckets. -/
def peakHourCalc (trips : ℕ → ℕ) : ℕ :=
  (peakFold trips 24).1

/-- `avgTripSec` as reported by `stats_json`. -/
def avgTripSec (s : GlobalStats) : ℚ :=
  if 0 < s.completedTrips then s.totalTripSec / (s.completedTrips : ℚ) else 0

-- ---------------------------------------------------------------------------
-- C6: travel-time curve
-- ---------------------------------------------------------------------------

/-- C6: the travel-time function returns 7.5 s for spans `n ≤ 1`, 15.0 s for
`n = 2`, and `7.5 + 7.5 + 7.0·(n − 2)` s for `n ≥ 3`; it is strictly
increasing in `n` for `n ≥ 2`, and `travel(1) = travel(2)/2`. -/
theorem travel_time_spec :
    (∀ n : ℕ, n ≤ 1 → travel_time_sec n = 7.5) ∧
    travel_time_sec 2 = 15.0 ∧
    (∀ n : ℕ, 3 ≤ n → travel_time_sec n = 7.5 + 7.5 + 7.0 * ((n : ℚ) - 2)) ∧
    (∀ m n : ℕ, 2 ≤ m → m < n → travel_time_sec m < travel_time_sec n) ∧
    travel_time_sec 1 = travel_time_sec 2 / 2 := by
  refine ⟨?_, ?_, ?_, ?_, ?_⟩
  · intro n hn
    simp [travel_time_sec, hn]
  · norm_num [travel_time_sec]
  · intro n hn
    have : ¬ n ≤ 1 := by omega
    simp [travel_time_sec, this]
  · intro m n hm hmn
    have hm1 : ¬ m ≤ 1 := by omega
    have hn1 : ¬ n ≤ 1 := by omega
    have hq : (m : ℚ) < (n : ℚ) := by exact_mod_cast hmn
    simp only [travel_time_sec, if_neg hm1, if_neg hn1]
    linarith
  · norm_num [travel_time_sec]

/-- Witness for C6 at concrete inputs. -/
theorem travel_time_spec_witness :
    travel_time_sec 0 = 7.5 ∧ travel_time_sec 5 = 7.5 + 7.5 + 7.0 * ((5 : ℚ) - 2) ∧
    travel_time_sec 2 < travel_time_sec 4 := by
  exact ⟨travel_time_spec.1 0 (by norm_num),
    travel_time_spec.2.2.1 5 (by norm_num),
    travel_time_spec.2.2.2.1 2 4 (by norm_num) (by norm_num)⟩

-- ---------------------------------------------------------------------------
-- C4: energy model
-- ---------------------------------------------------------------------------

/-- C4: the energy function matches the specification's four-case table with
`netMass = pax·65 + 500 − 1400`, `distance = |e − s|·5.0`,
`potentialWh = |netMass|·9.8·distance/3600`; in particular, a descending move
with positive net mass consumes `0.15·potentialWh` and regenerates
`potentialWh·0.78·0.95` when `netMass > 400`, half of that otherwise; and both
components are non-negative for all inputs. -/
theorem energy_spec (s e : ℤ) (pax : ℕ) :
    (e > s → netMass_spec pax > 0 →
      (calculateElevatorEnergyMATLAB s e pax).consumedWh =
        potentialWh_spec s e pax / motorEfficiency ∧
      (calculateElevatorEnergyMATLAB s e pax).regenWh = 0) ∧
    (e > s → netMass_spec pax ≤ 0 →
      (calculateElevatorEnergyMATLAB s e pax).consumedWh = 0.1 * distance_spec s e ∧
      (calculateElevatorEnergyMATLAB s e pax).regenWh = 0) ∧
    (e < s → netMass_spec pax > 0 →
      (calculateElevatorEnergyMATLAB s e pax).consumedWh =
        0.15 * potentialWh_spec s e pax ∧
      (calculateElevatorEnergyMATLAB s e pax).regenWh =
        (if netMass_spec pax > 400 then potentialWh_spec s e pax * 0.78 * 0.95
         else 0.5 * (potentialWh_spec s e pax * 0.78 * 0.95))) ∧
    (e < s → netMass_spec pax ≤ 0 →
      (calculateElevatorEnergyMATLAB s e pax).consumedWh =
        potentialWh_spec s e pax / motorEfficiency ∧
      (calculateElevatorEnergyMATLAB s e pax).regenWh = 0) ∧
    0 ≤ (calculateElevatorEnergyMATLAB s e pax).consumedWh ∧
    0 ≤ (calculateElevatorEnergyMATLAB s e pax).regenWh := by
  have hmass : (pax : ℚ) * personMass_kg + elevatorCarMass_kg - counterWeight_kg =
      netMass_spec pax := by
    norm_num [personMass_kg, elevatorCarMass_kg, counterWeight_kg, netMass_spec]
  have hdist : (((e - s).natAbs : ℚ)) * floorHeight_m = distance_spec s e := by
    simp [floorHeight_m, distance_spec]
  have hdist_nonneg : 0 ≤ distance_spec s e := by
    have : (0 : ℚ) ≤ ((e - s).natAbs : ℚ) := by positivity
    simp only [distance_spec]
    linarith
  have habs_nonneg : 0 ≤ |netMass_spec pax| := abs_nonneg _
  have hpot_nonneg : 0 ≤ potentialWh_spec s e pax := by
    simp only [potentialWh_spec]
    have h98 : (0 : ℚ) ≤ 9.8 := by norm_num
    positivity
  refine ⟨?_, ?_, ?_, ?_, ?_⟩
  · intro hlt hpos
    have habs : |netMass_spec pax| = netMass_spec pax := abs_of_pos hpos
    simp only [calculateElevatorEnergyMATLAB, hmass, hdist, if_pos hlt, if_pos hpos]
    constructor
    · simp only [potentialWh_spec, habs]
    · trivial
  · intro hlt hnp
    have : ¬ netMass_spec pax > 0 := by linarith
    simp only [calculateElevatorEnergyMATLAB, hmass, hdist, if_pos hlt, if_neg this]
    constructor
    · ring
    · trivial
  · intro hgt hpos
    have hnotlt : ¬ e > s := by omega
    have habs : |netMass_spec pax| = netMass_spec pax := abs_of_pos hpos
    simp only [calculateElevatorEnergyMATLAB, hmass, hdist, if_neg hnotlt, if_pos hpos]
    by_cases h4 : netMass_spec pax > 400
    · simp only [if_pos h4]
      refine ⟨?_, ?_⟩
      · simp only [potentialWh_spec, habs]; ring
      · simp only [potentialWh_spec, habs, regenEfficiency, supercapEfficiency]
    · simp only [if_neg h4]
      refine ⟨?_, ?_⟩
      · simp only [potentialWh_spec, habs]; ring
      · simp only [potentialWh_spec, habs, regenEfficiency, supercapEfficiency]; ring
  · intro hgt hnp
    have hnotlt : ¬ e > s := by omega
    have : ¬ netMass_spec pax > 0 := by linarith
    simp only [calculateElevatorEnergyMATLAB, hmass, hdist, if_neg hnotlt, if_neg this]
    exact ⟨by simp only [potentialWh_spec], trivial⟩
  · have hcons : 0 ≤ potentialWh_spec s e pax / motorEfficiency := by
      have : (0 : ℚ) < motorEfficiency := by norm_num [motorEfficiency]
      positivity
    constructor
    · simp only [calculateElevatorEnergyMATLAB, hmass, hdist]
      split
      · split
        · simpa [potentialWh_spec, abs_of_pos (by assumption)] using hcons
        · simp only []
          linarith
      · split
        · split
          · simp only [potentialWh_spec, abs_of_pos (by assumption)]
            nlinarith [hpot_nonneg, abs_of_pos (show (0:ℚ) < netMass_spec pax by assumption)]
          · simp only [potentialWh_spec, abs_of_pos (by assumption)]
            nlinarith [hpot_nonneg, abs_of_pos (show (0:ℚ) < netMass_spec pax by assumption)]
        · simpa [potentialWh_spec] using hcons
    · simp only [calculateElevatorEnergyMATLAB, hmass, hdist]
      split
      · split
        · norm_num
        · norm_num
      · split
        · split
          · simp only [potentialWh_spec, abs_of_pos (by assumption), regenEfficiency,
              supercapEfficiency]
            nlinarith [hpot_nonneg, abs_of_pos (show (0:ℚ) < netMass_spec pax by assumption)]
          · simp only [potentialWh_spec, abs_of_pos (by assumption), regenEfficiency,
              supercapEfficiency]
            nlinarith [hpot_nonneg, abs_of_pos (show (0:ℚ) < netMass_spec pax by assumption)]
        · norm_num

/-- Witness for C4: a descending move with 14 passengers (net mass 10 kg). -/
theorem energy_spec_witness :
    (calculateElevatorEnergyMATLAB 2 1 14).consumedWh =
      0.15 * potentialWh_spec 2 1 14 ∧
    (calculateElevatorEnergyMATLAB 2 1 14).regenWh =
      (if netMass_spec 14 > 400 then potentialWh_spec 2 1 14 * 0.78 * 0.95
       else 0.5 * (potentialWh_spec 2 1 14 * 0.78 * 0.95)) ∧
    0 ≤ (calculateElevatorEnergyMATLAB 2 1 14).regenWh := by
  have h := energy_spec 2 1 14
  have hm : netMass_spec 14 > 0 := by norm_num [netMass_spec]
  have hd := h.2.2.1 (by norm_num) hm
  exact ⟨hd.1, hd.2, h.2.2.2.2.2⟩

-- ---------------------------------------------------------------------------
-- C7: peak hour
-- ---------------------------------------------------------------------------

theorem peakFold_inv (trips : ℕ → ℕ) (n : ℕ) :
    (∀ h, h < n → trips h ≤ (peakFold trips n).2) ∧
    (peakFold trips n).2 ≤ trips (peakFold trips n).1 ∧
    (∀ h, h < (peakFold trips n).1 → trips h < (peakFold trips n).2) ∧
    ((peakFold trips n).1 = 0 ∨
      ((peakFold trips n).1 < n ∧ 0 < (peakFold trips n).2)) := by
  induction n with
  | zero =>
    refine ⟨?_, ?_, ?_, ?_⟩
    · intro h hh; omega
    · simp [peakFold]
    · intro h hh; simp [peakFold] at hh
    · left; simp [peakFold]
  | succ n ih =>
    have hstep : peakFold trips (n + 1) = peakStep trips (peakFold trips n) n := by
      simp [peakFold, List.range_succ]
    obtain ⟨ha, hb, hc, hd⟩ := ih
    by_cases hup : trips n > (peakFold trips n).2
    · have hres : peakFold trips (n + 1) = (n, trips n) := by
        rw [hstep]; simp [peakStep, hup]
      refine ⟨?_, ?_, ?_, ?_⟩
      · intro h hh
        rw [hres]
        rcases Nat.lt_succ_iff_lt_or_eq.mp hh with h1 | h1
        · exact le_of_lt (lt_of_le_of_lt (ha h h1) hup)
        · subst h1; simp
      · rw [hres]
      · intro h hh
        rw [hres] at hh ⊢
        exact lt_of_le_of_lt (ha h hh) hup
      · right
        rw [hres]
        exact ⟨Nat.lt_succ_self n, by omega⟩
    · have hres : peakFold trips (n + 1) = peakFold trips n := by
        rw [hstep]; simp [peakStep, hup]
      refine ⟨?_, ?_, ?_, ?_⟩
      · intro h hh
        rw [hres]
        rcases Nat.lt_succ_iff_lt_or_eq.mp hh with h1 | h1
        · exact ha h h1
        · subst h1; omega
      · rw [hres]; exact hb
      · intro h hh; rw [hres] at hh ⊢; exact hc h hh
      · rw [hres]
        rcases hd with h1 | h1
        · left; exact h1
        · right; exact ⟨Nat.lt_succ_of_lt h1.1, h1.2⟩

/-- C7: `peakHour` is a valid hour, every hourly bucket's trips count is at
most the reported peak hour's, every earlier hour is strictly below it (ties
resolve to the earliest hour), and all-zero buckets report hour 0. -/
theorem peakHour_spec (trips : ℕ → ℕ) :
    peakHourCalc trips < 24 ∧
    (∀ h, h < 24 → trips h ≤ trips (peakHourCalc trips)) ∧
    (∀ h, h < peakHourCalc trips → trips h < trips (peakHourCalc trips)) ∧
    ((∀ h, h < 24 → trips h = 0) → peakHourCalc trips = 0) := by
  obtain ⟨ha, hb, hc, hd⟩ := peakFold_inv trips 24
  refine ⟨?_, ?_, ?_, ?_⟩
  · rcases hd with h1 | h1
    · simp [peakHourCalc, h1]
    · exact h1.1
  · intro h hh
    exact le_trans (ha h hh) hb
  · intro h hh
    exact lt_of_lt_of_le (hc h hh) hb
  · intro hzero
    rcases hd with h1 | h1
    · exact h1
    · have := hzero (peakFold trips 24).1 h1.1
      have := hb
      omega

/-- Witness for C7 at a concrete bucket assignment. -/
theorem peakHour_spec_witness :
    peakHourCalc (fun h => if h = 8 then 10 else if h = 17 then 5 else 0) < 24 ∧
    (fun h => if h = 8 then 10 else if h = 17 then 5 else 0) 17 ≤
      (fun h => if h = 8 then 10 else if h = 17 then 5 else 0)
        (peakHourCalc (fun h => if h = 8 then 10 else if h = 17 then 5 else 0)) := by
  have h := peakHour_spec (fun h => if h = 8 then 10 else if h = 17 then 5 else 0)
  exact ⟨h.1, h.2.1 17 (by norm_num)⟩

-- ---------------------------------------------------------------------------
-- Dispatcher (leastCostScore / assignLeastCostHybrid / dispatch_calls)
-- ---------------------------------------------------------------------------

/-- Placeholder elevator used as the default of out-of-range list reads
(the source never reads out of range; proofs establish the indices are in
range). -/
def defaultElevator : Elevator :=
  { id := 0, currentFloor := 1, targetFloor := 1, direction := 0,
    doorOpen := false, state := EState.Idle, stateEndTime := 0 }

/-- Cost score of assigning the hall call `(callFloor, callDir)` to elevator
`el` (function `leastCostScore`). -/
def leastCostScore (el : Elevator) (callFloor callDir : ℤ) : ℚ :=
  let timePerFloor := travel_time_sec 1
  let pickupFloors : ℚ := ((el.currentFloor - callFloor).natAbs : ℚ)
  let pickupTime := pickupFloors * timePerFloor
  let reversalPenalty : ℚ :=
    if (el.direction = 1 ∧ callDir = -1) ∨ (el.direction = -1 ∧ callDir = 1)
    then 14.0 else 0.0
  let queuePenalty : ℚ := (el.stops.length : ℚ) * 18.0
  let stopPenalty : ℚ := if el.stops ≠ [] then 6.0 else 0.0
  1.8 * pickupTime + 1.3 * reversalPenalty + 1.4 * queuePenalty + 0.8 * stopPenalty

/-- Lexicographic order on `(distance, index)` pairs.  `std::sort` on
`std::pair<int,int>` compares exactly this way; since all indices are
distinct, the sorted arrangement is unique and any correct sort produces it,
so `List.insertionSort` by this order is a faithful embedding. -/
def pairLe (a b : ℕ × ℕ) : Prop :=
  a.1 < b.1 ∨ (a.1 = b.1 ∧ a.2 ≤ b.2)

instance : DecidableRel pairLe := fun a b => by
  unfold pairLe; infer_instance

instance : IsTotal (ℕ × ℕ) pairLe where
  total a b := by
    unfold pairLe
    omega

instance : IsTrans (ℕ × ℕ) pairLe where
  trans a b c hab hbc := by
    unfold pairLe at hab hbc ⊢
    omega

/-- The `{dist, idx}` list built by `assignLeastCostHybrid` before sorting. -/
def byDistList (elevs : List Elevator) (callFloor : ℤ) : List (ℕ × ℕ) :=
  (List.range elevs.length).map fun i =>
    (((elevs.getD i defaultElevator).currentFloor - callFloor).natAbs, i)

/-- The `{dist, idx}` list after `std::sort`. -/
def sortedByDist (elevs : List Elevator) (callFloor : ℤ) : List (ℕ × ℕ) :=
  List.insertionSort pairLe (byDistList elevs callFloor)

/-- `byDist[0].first` after sorting: the minimum distance. -/
def minDistOf (elevs : List Elevator) (callFloor : ℤ) : ℕ :=
  ((sortedByDist elevs callFloor).headD (0, 0)).1

/-- The first `K = min(2, N)` entries of the sorted distance list: the
candidate set of the hybrid dispatcher. -/
def nearestK (elevs : List Elevator) (callFloor : ℤ) : List (ℕ × ℕ) :=
  (sortedByDist elevs callFloor).take (min 2 (sortedByDist elevs callFloor).length)

/-- The cost used in the selection loop: the least-cost score with the 1.0
nearest bonus subtracted when this candidate's distance equals
`byDist[0].first`. -/
def adjustedCost (elevs : List Elevator) (callFloor callDir : ℤ) (minDist : ℕ)
    (p : ℕ × ℕ) : ℚ :=
  leastCostScore (elevs.getD p.2 defaultElevator) callFloor callDir -
    (if p.1 = minDist then 1.0 else 0)

/-- The candidate loop of `assignLeastCostHybrid`: runs over the candidate
pairs, keeping the best (strictly smaller) adjusted cost; `bestIdx` starts at
-1 and `bestCost` at 1e18. -/
def pickLoop (elevs : List Elevator) (callFloor callDir : ℤ) (minDist : ℕ) :
    List (ℕ × ℕ) → ℤ → ℚ → ℤ
  | [], bestIdx, _ => bestIdx
  | p :: rest, bestIdx, bestCost =>
    let c := adjustedCost elevs callFloor callDir minDist p
    if c < bestCost then pickLoop elevs callFloor callDir minDist rest (p.2 : ℤ) c
    else pickLoop elevs callFloor callDir minDist rest bestIdx bestCost

/-- Two-stage hybrid dispatcher (function `assignLeastCostHybrid`): sort by
distance, keep the nearest `min(2, N)`, then pick the least adjusted cost.
Returns the selected index into the elevator list, or -1 when there are no
elevators. -/
def assignLeastCostHybrid (elevs : List Elevator) (callFloor callDir : ℤ) : ℤ :=
  pickLoop elevs callFloor callDir (minDistOf elevs callFloor)
    (nearestK elevs callFloor) (-1) (10 ^ 18)

/-- Append floor `f` to an elevator's planned stops unless already present
(the dedup push in `dispatch_calls` and in the boarding pass). -/
def addStopDedup (el : Elevator) (f : ℤ) : Elevator :=
  if f ∈ el.stops then el else { el with stops := el.stops ++ [f] }

/-- Assignment of one latched hall call: select an elevator with the hybrid
dispatcher and append the call floor to its stops, deduplicated (the per-call
body of `dispatch_calls`). -/
def assignCall (elevs : List Elevator) (f d : ℤ) : List Elevator :=
  let best := assignLeastCostHybrid elevs f d
  if best < 0 then elevs
  else elevs.set best.toNat (addStopDedup (elevs.getD best.toNat defaultElevator) f)

/-- The internal floors `1..gFloors` in loop order. -/
def floorList (F : ℤ) : List ℤ :=
  (List.range F.toNat).map fun (k : ℕ) => (k : ℤ) + 1

/-- Dispatch pass for one floor: handle its latched up call, then its latched
down call. -/
def dispatchFloor (env : Env) (f : ℤ) (elevs : List Elevator) : List Elevator :=
  let elevs1 := if env.pendingUpCall f then assignCall elevs f 1 else elevs
  if env.pendingDownCall f then assignCall elevs1 f (-1) else elevs1

/-- The dispatcher (function `dispatch_calls`): for every floor, assign its
latched calls into elevator stop queues. -/
def dispatch_calls (w : World) : World :=
  { w with
      elevators :=
        (floorList w.env.gFloors).foldl
          (fun es f => dispatchFloor w.env f es) w.elevators }

-- ---------------------------------------------------------------------------
-- Traffic generator
-- ---------------------------------------------------------------------------

/-- Build a passenger for floor `floor` heading to `dest` (function
`make_passenger`; `dest` is the value returned by the RNG loop, which always
differs from `floor`). -/
def make_passenger (now : ℚ) (floor dest : ℤ) : Passenger :=
  { startFloor := floor, destFloor := dest,
    direction := if dest > floor then 1 else -1, created := now }

/-- Enqueue a freshly spawned passenger at floor `f` and latch the matching
call (the success branch of `generate_traffic`). -/
def spawnAt (now : ℚ) (f dest : ℤ) (env : Env) : Env :=
  let p := make_passenger now f dest
  if p.direction = 1 then
    { env with
        upQ := Function.update env.upQ f (env.upQ f ++ [p]),
        pendingUpCall := Function.update env.pendingUpCall f true,
        gStats := { env.gStats with totalPassengers := env.gStats.totalPassengers + 1 } }
  else
    { env with
        downQ := Function.update env.downQ f (env.downQ f ++ [p]),
        pendingDownCall := Function.update env.pendingDownCall f true,
        gStats := { env.gStats with totalPassengers := env.gStats.totalPassengers + 1 } }

/-- Traffic generator (function `generate_traffic`).  The Bernoulli draws and
destination choices of the RNG are supplied by the oracle `spawns : ℤ →
Option ℤ` (`none` = no spawn at that floor this tick, `some dest` = spawn a
passenger for `dest`). -/
def generate_traffic (now : ℚ) (spawns : ℤ → Option ℤ) (env : Env) : Env :=
  (floorList env.gFloors).foldl
    (fun acc f =>
      match spawns f with
      | none => acc
      | some dest => spawnAt now f dest acc) env

-- ---------------------------------------------------------------------------
-- Elevator state machine (update_elevator)
-- ---------------------------------------------------------------------------

/-- Placeholder passenger used as default for `headD` (never read on the
paths the proofs take). -/
def defaultPassenger : Passenger :=
  { startFloor := 1, destFloor := 1, direction := 0, created := 0 }

/-- One iteration of the `choose_next_target_fallback` scan: skip floors with
no waiting passenger, otherwise keep the floor if its distance is strictly
smaller than the best so far. -/
def fallbackStep (env : Env) (cur : ℤ) (acc : ℤ × ℕ) (f : ℤ) : ℤ × ℕ :=
  if env.upQ f = [] ∧ env.downQ f = [] then acc
  else if (f - cur).natAbs < acc.2 then (f, (f - cur).natAbs) else acc

/-- The scan of `choose_next_target_fallback` over floors `1..gFloors`:
running `(best, bestDist)` pair, starting `(currentFloor, 999)`, updated on
every floor with a waiting passenger at a strictly smaller distance. -/
def fallbackScan (env : Env) (cur : ℤ) : ℤ × ℕ :=
  (floorList env.gFloors).foldl (fallbackStep env cur) (cur, 999)

/-- Fallback target selection (function `choose_next_target_fallback`): the
front onboard passenger's destination when the car is occupied, otherwise the
nearest floor with a waiting passenger (or the current floor when there is
none). -/
def choose_next_target_fallback (env : Env) (e : Elevator) : ℤ :=
  if e.onboard ≠ [] then (e.onboard.headD defaultPassenger).destFloor
  else (fallbackScan env e.currentFloor).1

/-- Start a trip towards floor `next` (the tail of the Idle branch of
`update_elevator`): direction, Moving state, travel-time deadline, and the
trip statistics. -/
def startMoving (h : ℕ) (now : ℚ) (env : Env) (e : Elevator) (next : ℤ) :
    Elevator × Env :=
  let diff := next - e.currentFloor
  let floors := diff.natAbs
  let tSec := travel_time_sec floors
  ({ e with
      targetFloor := next,
      direction := if diff > 0 then 1 else -1,
      doorOpen := false,
      state := EState.Moving,
      stateEndTime := now + tSec,
      trips := e.trips + 1 },
   { env with
      gStats := { env.gStats with
        totalTrips := env.gStats.totalTrips + 1,
        completedTrips := env.gStats.completedTrips + 1,
        totalTripSec := env.gStats.totalTripSec + tSec },
      gHourly := Function.update env.gHourly h
        { env.gHourly h with trips := (env.gHourly h).trips + 1 } })

/-- The Idle branch of `update_elevator`. -/
def idleStep (h : ℕ) (now : ℚ) (env : Env) (e : Elevator) : Elevator × Env :=
  if e.stateEndTime ≤ now then
    match e.stops with
    | next :: rest =>
      if next = e.currentFloor then
        ({ e with stops := rest, direction := 0, stateEndTime := now + 1 }, env)
      else startMoving h now env e next
    | [] =>
      let next := choose_next_target_fallback env e
      if next = e.currentFloor then
        ({ e with direction := 0, stateEndTime := now + 1 }, env)
      else startMoving h now env e next
  else (e, env)

/-- State of the boarding loop: remaining capacity, remaining queue, onboard
list, stop list, and the wait-time statistics it accumulates. -/
structure BoardState where
  capLeft : ℕ
  q : List Passenger
  onboard : List Passenger
  stops : List ℤ
  waitSum : ℚ
  waitCnt : ℕ
deriving DecidableEq, Repr

/-- The boarding lambda of `update_elevator`: while capacity remains and the
queue is non-empty, move the front passenger onboard, record its wait time,
and add its destination to the stop list deduplicated. -/
def boardLoop (now : ℚ) : ℕ → List Passenger → List Passenger → List ℤ →
    ℚ → ℕ → BoardState
  | 0, q, onboard, stops, waitSum, waitCnt =>
    ⟨0, q, onboard, stops, waitSum, waitCnt⟩
  | c + 1, [], onboard, stops, waitSum, waitCnt =>
    ⟨c + 1, [], onboard, stops, waitSum, waitCnt⟩
  | c + 1, p :: rest, onboard, stops, waitSum, waitCnt =>
    boardLoop now c rest (onboard ++ [p])
      (if p.destFloor ∈ stops then stops else stops ++ [p.destFloor])
      (waitSum + (now - p.created)) (waitCnt + 1)

/-- The passengers remaining onboard after the discharge pass at arrival: the
in-place erase loop keeps, in order, exactly those whose destination is not
the arrival floor. -/
def keptOnboard (e : Elevator) : List Passenger :=
  e.onboard.filter (fun p => p.destFloor ≠ e.targetFloor)

/-- The boarding pass over the up queue at arrival (first call of the
`board` lambda): capacity left after discharge, the deduped stop list with
the arrival floor removed. -/
def arrivalBoardUp (now : ℚ) (env : Env) (e : Elevator) : BoardState :=
  boardLoop now (e.capacity - (keptOnboard e).length) (env.upQ e.targetFloor)
    (keptOnboard e) (e.stops.filter (fun s => s ≠ e.targetFloor)) 0 0

/-- The boarding pass over the down queue at arrival (second call of the
`board` lambda), continuing from the state the up pass left. -/
def arrivalBoardDown (now : ℚ) (env : Env) (e : Elevator) : BoardState :=
  boardLoop now (arrivalBoardUp now env e).capLeft (env.downQ e.targetFloor)
    (arrivalBoardUp now env e).onboard (arrivalBoardUp now env e).stops 0 0

/-- The Moving branch of `update_elevator`: on arrival, account energy and
cost, open the doors, drop this floor from the stop list, discharge
passengers destined here, then board from the up queue and the down queue,
clearing each latch whose queue ends up empty. -/
def movingStep (h : ℕ) (now : ℚ) (env : Env) (e : Elevator) : Elevator × Env :=
  if e.stateEndTime ≤ now then
    let er := calculateElevatorEnergyMATLAB e.currentFloor e.targetFloor e.onboard.length
    let rate := ontario_rate_cad_per_kwh h
    let netCost := er.netWh * rate / 1000
    let traditionalCost := er.consumedWh * rate / 1000
    let netKWh := er.netWh / 1000
    let cur := e.targetFloor
    let dropped := e.onboard.length - (keptOnboard e).length
    let bU := arrivalBoardUp now env e
    let bD := arrivalBoardDown now env e
    ({ e with
        currentFloor := cur,
        direction := 0,
        doorOpen := true,
        state := EState.DoorOpen,
        stateEndTime := now + 5,
        stopCount := e.stopCount + 1,
        doorOpenCount := e.doorOpenCount + 1,
        stops := bD.stops,
        onboard := bD.onboard,
        passengersMoved := e.passengersMoved + dropped,
        energyKWh := e.energyKWh + netKWh },
     { env with
        upQ := Function.update env.upQ cur bU.q,
        downQ := Function.update env.downQ cur bD.q,
        pendingUpCall :=
          if bU.q = [] then Function.update env.pendingUpCall cur false
          else env.pendingUpCall,
        pendingDownCall :=
          if bD.q = [] then Function.update env.pendingDownCall cur false
          else env.pendingDownCall,
        gStats := { env.gStats with
          totalEnergyConsumedWh := env.gStats.totalEnergyConsumedWh + er.consumedWh,
          totalEnergyRegenWh := env.gStats.totalEnergyRegenWh + er.regenWh,
          totalNetEnergyWh := env.gStats.totalNetEnergyWh + er.netWh,
          totalCostCAD := env.gStats.totalCostCAD + netCost,
          costTraditionalCAD := env.gStats.costTraditionalCAD + traditionalCost,
          totalEnergyKWh := env.gStats.totalEnergyKWh + netKWh,
          completedPassengers := env.gStats.completedPassengers + dropped,
          totalWaitSec := env.gStats.totalWaitSec + bU.waitSum + bD.waitSum },
        gHourly := Function.update env.gHourly h
          { env.gHourly h with
            energyKWh := (env.gHourly h).energyKWh + netKWh,
            totalWaitSec := (env.gHourly h).totalWaitSec + bU.waitSum + bD.waitSum,
            waitCount := (env.gHourly h).waitCount + bU.waitCnt + bD.waitCnt } })
  else (e, env)

/-- The DoorOpen branch of `update_elevator`: close the doors and re-arm Idle
for one second. -/
def doorOpenStep (now : ℚ) (e : Elevator) : Elevator :=
  if e.stateEndTime ≤ now then
    { e with doorOpen := false, state := EState.Idle, stateEndTime := now + 1 }
  else e

/-- Elevator state machine advance (function `update_elevator`), returning
the updated elevator and the updated global environment. -/
def update_elevator (h : ℕ) (now : ℚ) (env : Env) (e : Elevator) :
    Elevator × Env :=
  match e.state with
  | EState.Idle => idleStep h now env e
  | EState.Moving => movingStep h now env e
  | EState.DoorOpen => (doorOpenStep now e, env)

/-- One step of the per-elevator update loop: advance one elevator against
the environment threaded so far, and append the result. -/
def updStep (h : ℕ) (now : ℚ) (acc : List Elevator × Env) (e : Elevator) :
    List Elevator × Env :=
  let s := update_elevator h now acc.2 e
  (acc.1 ++ [s.1], s.2)

/-- Advance every elevator in order, threading the global environment through
(the `for (auto& e : gElevators) update_elevator(e, now);` loop). -/
def updateAll (h : ℕ) (now : ℚ) (w : World) : World :=
  let r := w.elevators.foldl (updStep h now) ([], w.env)
  { env := r.2, elevators := r.1 }

/-- One full simulation tick (the body of `sim_loop` under the mutex):
traffic generation, dispatch, then all elevator updates. -/
def tickStep (h : ℕ) (now : ℚ) (spawns : ℤ → Option ℤ) (w : World) : World :=
  let w1 : World := { w with env := generate_traffic now spawns w.env }
  let w2 := dispatch_calls w1
  updateAll h now w2

-- ---------------------------------------------------------------------------
-- Helper lemmas about the state machine
-- ---------------------------------------------------------------------------

theorem foldl_preserve {α β : Type} (P : β → Prop) (f : β → α → β) :
    ∀ (l : List α) (b : β), (∀ b a, P b → P (f b a)) → P b → P (l.foldl f b) := by
  intro l
  induction l with
  | nil => intro b _ hb; exact hb
  | cons x xs ih => intro b hstep hb; exact ih _ hstep (hstep _ _ hb)

theorem movingStep_fields (h : ℕ) (now : ℚ) (env : Env) (e : Elevator)
    (ht : e.stateEndTime ≤ now) :
    (movingStep h now env e).1.currentFloor = e.targetFloor ∧
    (movingStep h now env e).1.capacity = e.capacity ∧
    (movingStep h now env e).1.onboard = (arrivalBoardDown now env e).onboard ∧
    (movingStep h now env e).2.upQ =
      Function.update env.upQ e.targetFloor (arrivalBoardUp now env e).q ∧
    (movingStep h now env e).2.downQ =
      Function.update env.downQ e.targetFloor (arrivalBoardDown now env e).q ∧
    (movingStep h now env e).2.pendingUpCall =
      (if (arrivalBoardUp now env e).q = []
       then Function.update env.pendingUpCall e.targetFloor false
       else env.pendingUpCall) ∧
    (movingStep h now env e).2.pendingDownCall =
      (if (arrivalBoardDown now env e).q = []
       then Function.update env.pendingDownCall e.targetFloor false
       else env.pendingDownCall) ∧
    (movingStep h now env e).2.gStats.totalTrips = env.gStats.totalTrips ∧
    (movingStep h now env e).2.gStats.completedTrips = env.gStats.completedTrips := by
  unfold movingStep
  rw [if_pos ht]
  exact ⟨rfl, rfl, rfl, rfl, rfl, rfl, rfl, rfl, rfl⟩

theorem movingStep_skip (h : ℕ) (now : ℚ) (env : Env) (e : Elevator)
    (ht : ¬ e.stateEndTime ≤ now) :
    movingStep h now env e = (e, env) := by
  unfold movingStep
  rw [if_neg ht]

theorem boardLoop_spec (now : ℚ) :
    ∀ (c : ℕ) (q ob : List Passenger) (st : List ℤ) (ws : ℚ) (wc : ℕ),
      (boardLoop now c q ob st ws wc).onboard.length = ob.length + min c q.length ∧
      (boardLoop now c q ob st ws wc).capLeft = c - min c q.length ∧
      (boardLoop now c q ob st ws wc).q = q.drop (min c q.length) := by
  intro c
  induction c with
  | zero =>
    intro q ob st ws wc
    simp [boardLoop]
  | succ c ih =>
    intro q ob st ws wc
    cases q with
    | nil => simp [boardLoop]
    | cons p rest =>
      simp only [boardLoop]
      obtain ⟨h1, h2, h3⟩ := ih rest (ob ++ [p])
        (if p.destFloor ∈ st then st else st ++ [p.destFloor])
        (ws + (now - p.created)) (wc + 1)
      have hmin : min (c + 1) (p :: rest).length = min c rest.length + 1 := by
        simp only [List.length_cons]; omega
      refine ⟨?_, ?_, ?_⟩
      · rw [h1, hmin]
        simp only [List.length_append, List.length_cons, List.length_nil]
        omega
      · rw [h2, hmin]
        omega
      · rw [h3, hmin, List.drop_succ_cons]

-- ---------------------------------------------------------------------------
-- C8: any arrival clears a latch whose queue is left empty
-- ---------------------------------------------------------------------------

/-- C8: on every Moving-to-DoorOpen transition, after the boarding pass the
up latch at the arrival floor is false whenever the up queue there is empty,
and symmetrically for the down latch — for any elevator that fires this
transition, dispatched to that floor or not. -/
theorem arrival_clears_empty_latch (h : ℕ) (now : ℚ) (env : Env) (e : Elevator)
    (hstate : e.state = EState.Moving) (ht : e.stateEndTime ≤ now) :
    ((update_elevator h now env e).2.upQ (update_elevator h now env e).1.currentFloor = [] →
      (update_elevator h now env e).2.pendingUpCall
        (update_elevator h now env e).1.currentFloor = false) ∧
    ((update_elevator h now env e).2.downQ (update_elevator h now env e).1.currentFloor = [] →
      (update_elevator h now env e).2.pendingDownCall
        (update_elevator h now env e).1.currentFloor = false) := by
  have hup : update_elevator h now env e = movingStep h now env e := by
    unfold update_elevator
    rw [hstate]
  obtain ⟨hcf, _, _, hq, hqd, hp, hpd, _, _⟩ := movingStep_fields h now env e ht
  rw [hup]
  constructor
  · intro hempty
    rw [hcf, hq, Function.update_same] at hempty
    rw [hcf, hp, if_pos hempty, Function.update_same]
  · intro hempty
    rw [hcf, hqd, Function.update_same] at hempty
    rw [hcf, hpd, if_pos hempty, Function.update_same]

/-- An environment with no pending traffic, used by concrete witnesses. -/
def emptyEnv : Env :=
  { gFloors := 1, upQ := fun _ => [], downQ := fun _ => [],
    pendingUpCall := fun _ => false, pendingDownCall := fun _ => false,
    gStats := {}, gHourly := fun _ => {} }

/-- A concrete elevator in flight towards floor 1, used by the C8 witness. -/
def movingElevator : Elevator :=
  { defaultElevator with
      state := EState.Moving
      currentFloor := 2
      targetFloor := 1
      direction := -1
      stateEndTime := 0 }

/-- Witness for C8: a concrete arrival at a floor with an empty queue leaves
the latch cleared. -/
theorem arrival_clears_empty_latch_witness :
    (update_elevator 0 0 emptyEnv movingElevator).2.pendingUpCall
      (update_elevator 0 0 emptyEnv movingElevator).1.currentFloor = false := by
  have h := arrival_clears_empty_latch 0 0 emptyEnv movingElevator rfl le_rfl
  apply h.1
  rfl

-- ---------------------------------------------------------------------------
-- C9: totalTrips and completedTrips move in lockstep
-- ---------------------------------------------------------------------------

theorem idleStep_counters (h : ℕ) (now : ℚ) (env : Env) (e : Elevator) :
    ((idleStep h now env e).2.gStats.totalTrips = env.gStats.totalTrips + 1 ∧
     (idleStep h now env e).2.gStats.completedTrips = env.gStats.completedTrips + 1) ∨
    ((idleStep h now env e).2.gStats.totalTrips = env.gStats.totalTrips ∧
     (idleStep h now env e).2.gStats.completedTrips = env.gStats.completedTrips) := by
  unfold idleStep
  split
  · cases hs : e.stops with
    | nil =>
      simp only []
      split
      · right; exact ⟨rfl, rfl⟩
      · left; unfold startMoving; exact ⟨rfl, rfl⟩
    | cons a l =>
      simp only []
      split
      · right; exact ⟨rfl, rfl⟩
      · left; unfold startMoving; exact ⟨rfl, rfl⟩
  · right; exact ⟨rfl, rfl⟩

theorem update_elevator_counters (h : ℕ) (now : ℚ) (env : Env) (e : Elevator) :
    ((update_elevator h now env e).2.gStats.totalTrips = env.gStats.totalTrips + 1 ∧
     (update_elevator h now env e).2.gStats.completedTrips = env.gStats.completedTrips + 1) ∨
    ((update_elevator h now env e).2.gStats.totalTrips = env.gStats.totalTrips ∧
     (update_elevator h now env e).2.gStats.completedTrips = env.gStats.completedTrips) := by
  unfold update_elevator
  cases hs : e.state with
  | Idle => exact idleStep_counters h now env e
  | Moving =>
    right
    by_cases ht : e.stateEndTime ≤ now
    · obtain ⟨_, _, _, _, _, _, _, h1, h2⟩ := movingStep_fields h now env e ht
      exact ⟨h1, h2⟩
    · rw [movingStep_skip h now env e ht]
      exact ⟨rfl, rfl⟩
  | DoorOpen => right; exact ⟨rfl, rfl⟩

theorem spawnAt_counters (now : ℚ) (f dest : ℤ) (env : Env) :
    (spawnAt now f dest env).gStats.totalTrips = env.gStats.totalTrips ∧
    (spawnAt now f dest env).gStats.completedTrips = env.gStats.completedTrips := by
  unfold spawnAt make_passenger
  split
  · exact ⟨rfl, rfl⟩
  · exact ⟨rfl, rfl⟩

theorem generate_traffic_counters (now : ℚ) (spawns : ℤ → Option ℤ) (env : Env) :
    (generate_traffic now spawns env).gStats.totalTrips = env.gStats.totalTrips ∧
    (generate_traffic now spawns env).gStats.completedTrips = env.gStats.completedTrips := by
  unfold generate_traffic
  refine foldl_preserve
    (fun acc => acc.gStats.totalTrips = env.gStats.totalTrips ∧
      acc.gStats.completedTrips = env.gStats.completedTrips) _ _ env ?_ ⟨rfl, rfl⟩
  intro acc f hacc
  cases hsp : spawns f with
  | none => exact hacc
  | some dest =>
    obtain ⟨h1, h2⟩ := spawnAt_counters now f dest acc
    exact ⟨h1.trans hacc.1, h2.trans hacc.2⟩

theorem dispatch_calls_env (w : World) : (dispatch_calls w).env = w.env := rfl

/-- C9: `gStats.totalTrips` and `gStats.completedTrips` always move together —
every elevator update either increments both by one (the Idle-to-Moving
transition) or leaves both unchanged, so their equality is preserved by every
full simulation tick; and under that equality `avgTripSec` is the total trip
time divided by the number of started trips. -/
theorem trips_counters_lockstep :
    (∀ (h : ℕ) (now : ℚ) (env : Env) (e : Elevator),
      ((update_elevator h now env e).2.gStats.totalTrips = env.gStats.totalTrips + 1 ∧
       (update_elevator h now env e).2.gStats.completedTrips = env.gStats.completedTrips + 1) ∨
      ((update_elevator h now env e).2.gStats.totalTrips = env.gStats.totalTrips ∧
       (update_elevator h now env e).2.gStats.completedTrips = env.gStats.completedTrips)) ∧
    (∀ s : GlobalStats, s.completedTrips = s.totalTrips →
      avgTripSec s = if 0 < s.totalTrips then s.totalTripSec / (s.totalTrips : ℚ) else 0) ∧
    (∀ (h : ℕ) (now : ℚ) (spawns : ℤ → Option ℤ) (w : World),
      w.env.gStats.completedTrips = w.env.gStats.totalTrips →
      (tickStep h now spawns w).env.gStats.completedTrips =
        (tickStep h now spawns w).env.gStats.totalTrips) := by
  refine ⟨update_elevator_counters, ?_, ?_⟩
  · intro s hs
    unfold avgTripSec
    rw [hs]
  · intro h now spawns w hw
    unfold tickStep updateAll
    simp only [dispatch_calls_env]
    have hgen := generate_traffic_counters now spawns w.env
    refine foldl_preserve
      (fun acc : List Elevator × Env =>
        acc.2.gStats.completedTrips = acc.2.gStats.totalTrips)
      (updStep h now) _ _ ?_ ?_
    · intro acc e hacc
      unfold updStep
      rcases update_elevator_counters h now acc.2 e with h1 | h1
      · simp only [h1.1, h1.2, hacc]
      · simp only [h1.1, h1.2, hacc]
    · simp only [hgen.1, hgen.2, hw]

/-- Witness for C9: the lockstep equality holds across a concrete tick from a
world whose counters are equal. -/
theorem trips_counters_lockstep_witness :
    (tickStep 0 0 (fun _ => none)
      { env := emptyEnv, elevators := [defaultElevator] }).env.gStats.completedTrips =
    (tickStep 0 0 (fun _ => none)
      { env := emptyEnv, elevators := [defaultElevator] }).env.gStats.totalTrips := by
  exact trips_counters_lockstep.2.2 0 0 (fun _ => none)
    { env := emptyEnv, elevators := [defaultElevator] } rfl

-- ---------------------------------------------------------------------------
-- Frame machinery for the dispatcher (C10, and reused by C2)
-- ---------------------------------------------------------------------------

/-- Relation between an elevator before and after a dispatcher pass: every
field except `stops` is unchanged, `stops` has only been extended at the end,
and freedom from duplicates is preserved. -/
def ElevFrame (e e' : Elevator) : Prop :=
  e'.id = e.id ∧ e'.currentFloor = e.currentFloor ∧ e'.targetFloor = e.targetFloor ∧
  e'.direction = e.direction ∧ e'.doorOpen = e.doorOpen ∧ e'.state = e.state ∧
  e'.stateEndTime = e.stateEndTime ∧ e'.capacity = e.capacity ∧
  e'.onboard = e.onboard ∧ e'.trips = e.trips ∧
  e'.passengersMoved = e.passengersMoved ∧ e'.energyKWh = e.energyKWh ∧
  e'.doorOpenCount = e.doorOpenCount ∧ e'.stopCount = e.stopCount ∧
  (∃ t : List ℤ, e'.stops = e.stops ++ t) ∧
  (e.stops.Nodup → e'.stops.Nodup)

theorem ElevFrame_refl (e : Elevator) : ElevFrame e e := by
  refine ⟨rfl, rfl, rfl, rfl, rfl, rfl, rfl, rfl, rfl, rfl, rfl, rfl, rfl, rfl,
    ⟨[], ?_⟩, fun h => h⟩
  simp

theorem ElevFrame_trans {a b c : Elevator} (hab : ElevFrame a b) (hbc : ElevFrame b c) :
    ElevFrame a c := by
  obtain ⟨h1, h2, h3, h4, h5, h6, h7, h8, h9, h10, h11, h12, h13, h14, ⟨t1, ht1⟩, hn1⟩ := hab
  obtain ⟨g1, g2, g3, g4, g5, g6, g7, g8, g9, g10, g11, g12, g13, g14, ⟨t2, ht2⟩, hn2⟩ := hbc
  refine ⟨g1.trans h1, g2.trans h2, g3.trans h3, g4.trans h4, g5.trans h5, g6.trans h6,
    g7.trans h7, g8.trans h8, g9.trans h9, g10.trans h10, g11.trans h11, g12.trans h12,
    g13.trans h13, g14.trans h14, ⟨t1 ++ t2, ?_⟩, fun h => hn2 (hn1 h)⟩
  rw [ht2, ht1, List.append_assoc]

theorem ElevFrame_addStopDedup (e : Elevator) (f : ℤ) :
    ElevFrame e (addStopDedup e f) := by
  unfold addStopDedup
  split
  · exact ElevFrame_refl e
  · refine ⟨rfl, rfl, rfl, rfl, rfl, rfl, rfl, rfl, rfl, rfl, rfl, rfl, rfl, rfl,
      ⟨[f], rfl⟩, ?_⟩
    intro hn
    rename_i hmem
    simp [List.nodup_append, hn, hmem]

/-- Frame relation on whole elevator lists, position by position. -/
def ListFrame (es es' : List Elevator) : Prop :=
  es'.length = es.length ∧
  ∀ i, i < es.length →
    ElevFrame (es.getD i defaultElevator) (es'.getD i defaultElevator)

theorem ListFrame_refl (es : List Elevator) : ListFrame es es :=
  ⟨rfl, fun _ _ => ElevFrame_refl _⟩

theorem ListFrame_trans {a b c : List Elevator} (hab : ListFrame a b)
    (hbc : ListFrame b c) : ListFrame a c := by
  refine ⟨hbc.1.trans hab.1, fun i hi => ?_⟩
  exact ElevFrame_trans (hab.2 i hi) (hbc.2 i (hab.1 ▸ hi))

theorem getD_set_self {α : Type} :
    ∀ (l : List α) (i : ℕ) (v d : α), i < l.length → (l.set i v).getD i d = v := by
  intro l
  induction l with
  | nil => intro i v d h; simp at h
  | cons a t ih =>
    intro i v d h
    cases i with
    | zero => rfl
    | succ j => exact ih j v d (by simpa using h)

theorem getD_set_ne {α : Type} :
    ∀ (l : List α) (i j : ℕ) (v d : α), i ≠ j → (l.set i v).getD j d = l.getD j d := by
  intro l
  induction l with
  | nil => intro i j v d _; rfl
  | cons a t ih =>
    intro i j v d h
    cases i with
    | zero =>
      cases j with
      | zero => exact absurd rfl h
      | succ k => rfl
    | succ i2 =>
      cases j with
      | zero => rfl
      | succ k => exact ih i2 k v d (by omega)

theorem pickLoop_mem (elevs : List Elevator) (callFloor callDir : ℤ) (minDist : ℕ) :
    ∀ (l : List (ℕ × ℕ)) (b : ℤ) (c : ℚ),
      pickLoop elevs callFloor callDir minDist l b c = b ∨
      ∃ p ∈ l, pickLoop elevs callFloor callDir minDist l b c = (p.2 : ℤ) := by
  intro l
  induction l with
  | nil => intro b c; left; rfl
  | cons p rest ih =>
    intro b c
    simp only [pickLoop]
    split
    · rcases ih (p.2 : ℤ) (adjustedCost elevs callFloor callDir minDist p) with h1 | h1
      · right; exact ⟨p, List.mem_cons_self p rest, h1⟩
      · obtain ⟨q, hq, hval⟩ := h1
        right; exact ⟨q, List.mem_cons_of_mem p hq, hval⟩
    · rcases ih b c with h1 | h1
      · left; exact h1
      · obtain ⟨q, hq, hval⟩ := h1
        right; exact ⟨q, List.mem_cons_of_mem p hq, hval⟩

theorem byDistList_idx_lt (elevs : List Elevator) (callFloor : ℤ) :
    ∀ p ∈ byDistList elevs callFloor, p.2 < elevs.length := by
  intro p hp
  unfold byDistList at hp
  obtain ⟨i, hi, hpi⟩ := List.mem_map.mp hp
  rw [← hpi]
  exact List.mem_range.mp hi

theorem nearestK_sub (elevs : List Elevator) (callFloor : ℤ) :
    ∀ p ∈ nearestK elevs callFloor, p ∈ byDistList elevs callFloor := by
  intro p hp
  unfold nearestK at hp
  have := List.mem_of_mem_take hp
  exact (List.perm_insertionSort pairLe (byDistList elevs callFloor)).mem_iff.mp this

theorem assignLeastCostHybrid_range (elevs : List Elevator) (f d : ℤ) :
    assignLeastCostHybrid elevs f d = -1 ∨
    (0 ≤ assignLeastCostHybrid elevs f d ∧
      (assignLeastCostHybrid elevs f d).toNat < elevs.length) := by
  unfold assignLeastCostHybrid
  rcases pickLoop_mem elevs f d (minDistOf elevs f) (nearestK elevs f) (-1) (10 ^ 18)
    with h1 | h1
  · left; exact h1
  · obtain ⟨p, hp, hval⟩ := h1
    right
    rw [hval]
    have := byDistList_idx_lt elevs f p (nearestK_sub elevs f p hp)
    constructor
    · exact Int.ofNat_nonneg p.2
    · simpa using this

/-- Each single call assignment either changes nothing (no elevator exists)
or appends at most one entry to exactly one elevator's stop list. -/
theorem assignCall_cases (elevs : List Elevator) (f d : ℤ) :
    assignCall elevs f d = elevs ∨
    ∃ i, i < elevs.length ∧
      assignCall elevs f d =
        elevs.set i (addStopDedup (elevs.getD i defaultElevator) f) := by
  unfold assignCall
  by_cases hb : assignLeastCostHybrid elevs f d < 0
  · left; rw [if_pos hb]
  · right
    rcases assignLeastCostHybrid_range elevs f d with h1 | h1
    · exact absurd (by rw [h1]; norm_num) hb
    · refine ⟨(assignLeastCostHybrid elevs f d).toNat, h1.2, ?_⟩
      rw [if_neg hb]

theorem ListFrame_assignCall (elevs : List Elevator) (f d : ℤ) :
    ListFrame elevs (assignCall elevs f d) := by
  rcases assignCall_cases elevs f d with h1 | h1
  · rw [h1]; exact ListFrame_refl elevs
  · obtain ⟨i, hi, heq⟩ := h1
    rw [heq]
    refine ⟨List.length_set elevs i _ ▸ rfl, fun j hj => ?_⟩
    by_cases hij : i = j
    · subst hij
      rw [getD_set_self elevs i _ defaultElevator hi]
      exact ElevFrame_addStopDedup _ f
    · rw [getD_set_ne elevs i j _ defaultElevator hij]
      exact ElevFrame_refl _

theorem ListFrame_dispatchFloor (env : Env) (f : ℤ) (elevs : List Elevator) :
    ListFrame elevs (dispatchFloor env f elevs) := by
  unfold dispatchFloor
  split
  · split
    · exact ListFrame_trans (ListFrame_assignCall elevs f 1)
        (ListFrame_assignCall (assignCall elevs f 1) f (-1))
    · exact ListFrame_assignCall elevs f 1
  · split
    · exact ListFrame_assignCall elevs f (-1)
    · exact ListFrame_refl elevs

theorem ListFrame_dispatch (w : World) :
    ListFrame w.elevators (dispatch_calls w).elevators := by
  unfold dispatch_calls
  simp only []
  refine foldl_preserve (fun es' => ListFrame w.elevators es')
    (fun es f => dispatchFloor w.env f es) (floorList w.env.gFloors) w.elevators
    ?_ (ListFrame_refl _)
  intro es f hF
  exact ListFrame_trans hF (ListFrame_dispatchFloor w.env f es)

/-- C10: the dispatcher pass leaves the whole global environment (queues,
latches, global and hourly statistics) unchanged, keeps the elevator list's
length, changes no elevator field other than `stops`, only ever appends to a
`stops` list while preserving its freedom from duplicates, and each latched
call appends at most one entry, to exactly one elevator, deduplicated. -/
theorem dispatch_frame (w : World) :
    (dispatch_calls w).env = w.env ∧
    (dispatch_calls w).elevators.length = w.elevators.length ∧
    (∀ i, i < w.elevators.length →
      ElevFrame (w.elevators.getD i defaultElevator)
        ((dispatch_calls w).elevators.getD i defaultElevator)) ∧
    (∀ (elevs : List Elevator) (f d : ℤ),
      assignCall elevs f d = elevs ∨
      ∃ i, i < elevs.length ∧
        assignCall elevs f d =
          elevs.set i (addStopDedup (elevs.getD i defaultElevator) f)) := by
  obtain ⟨hlen, hidx⟩ := ListFrame_dispatch w
  exact ⟨rfl, hlen, hidx, assignCall_cases⟩

/-- Witness for C10 on a concrete world: the environment and the elevator
count survive a dispatch pass. -/
theorem dispatch_frame_witness :
    (dispatch_calls { env := emptyEnv, elevators := [defaultElevator] }).env = emptyEnv ∧
    (dispatch_calls { env := emptyEnv, elevators := [defaultElevator] }).elevators.length = 1 := by
  have h := dispatch_frame { env := emptyEnv, elevators := [defaultElevator] }
  exact ⟨h.1, h.2.1⟩

-- ---------------------------------------------------------------------------
-- C2: capacity invariant
-- ---------------------------------------------------------------------------

theorem idleStep_onboard (h : ℕ) (now : ℚ) (env : Env) (e : Elevator) :
    (idleStep h now env e).1.onboard = e.onboard ∧
    (idleStep h now env e).1.capacity = e.capacity := by
  unfold idleStep startMoving
  split
  · cases e.stops with
    | nil =>
      simp only []
      split
      · exact ⟨rfl, rfl⟩
      · exact ⟨rfl, rfl⟩
    | cons a l =>
      simp only []
      split
      · exact ⟨rfl, rfl⟩
      · exact ⟨rfl, rfl⟩
  · exact ⟨rfl, rfl⟩

theorem doorOpenStep_onboard (now : ℚ) (e : Elevator) :
    (doorOpenStep now e).onboard = e.onboard ∧
    (doorOpenStep now e).capacity = e.capacity := by
  unfold doorOpenStep
  split
  · exact ⟨rfl, rfl⟩
  · exact ⟨rfl, rfl⟩

theorem movingStep_capacity (h : ℕ) (now : ℚ) (env : Env) (e : Elevator)
    (hcap : e.onboard.length ≤ e.capacity) :
    (movingStep h now env e).1.onboard.length ≤ (movingStep h now env e).1.capacity := by
  by_cases ht : e.stateEndTime ≤ now
  · obtain ⟨_, hcap', honb, _⟩ := movingStep_fields h now env e ht
    rw [honb, hcap']
    unfold arrivalBoardDown
    obtain ⟨hD1, _, _⟩ := boardLoop_spec now (arrivalBoardUp now env e).capLeft
      (env.downQ e.targetFloor) (arrivalBoardUp now env e).onboard
      (arrivalBoardUp now env e).stops 0 0
    unfold arrivalBoardUp at hD1 ⊢
    obtain ⟨hU1, hU2, _⟩ := boardLoop_spec now (e.capacity - (keptOnboard e).length)
      (env.upQ e.targetFloor) (keptOnboard e)
      (e.stops.filter (fun s => s ≠ e.targetFloor)) 0 0
    have hkept : (keptOnboard e).length ≤ e.onboard.length :=
      List.length_filter_le _ _
    omega
  · rw [movingStep_skip h now env e ht]
    exact hcap

theorem update_elevator_capacity (h : ℕ) (now : ℚ) (env : Env) (e : Elevator)
    (hcap : e.onboard.length ≤ e.capacity) :
    (update_elevator h now env e).1.onboard.length ≤
      (update_elevator h now env e).1.capacity := by
  unfold update_elevator
  cases e.state with
  | Idle =>
    obtain ⟨h1, h2⟩ := idleStep_onboard h now env e
    rw [h1, h2]; exact hcap
  | Moving => exact movingStep_capacity h now env e hcap
  | DoorOpen =>
    obtain ⟨h1, h2⟩ := doorOpenStep_onboard now e
    simp only []
    rw [h1, h2]; exact hcap

theorem ListFrame_forall {P : Elevator → Prop}
    (hP : ∀ a b, ElevFrame a b → P a → P b) :
    ∀ {es es' : List Elevator}, ListFrame es es' → (∀ e ∈ es, P e) →
      ∀ e ∈ es', P e := by
  intro es es' hF hall e he
  obtain ⟨i, hi, hg⟩ := List.mem_iff_getElem.mp he
  have hlen : i < es.length := by rw [← hF.1]; exact hi
  have hPd : P (es.getD i defaultElevator) := by
    rw [List.getD_eq_getElem es defaultElevator hlen]
    exact hall _ (List.getElem_mem hlen)
  have hres : P (es'.getD i defaultElevator) := hP _ _ (hF.2 i hlen) hPd
  rwa [List.getD_eq_getElem es' defaultElevator hi, hg] at hres

theorem updateAll_forall (h : ℕ) (now : ℚ) (P : Elevator → Prop)
    (hstep : ∀ env e, P e → P (update_elevator h now env e).1) (w : World)
    (hw : ∀ e ∈ w.elevators, P e) :
    ∀ e ∈ (updateAll h now w).elevators, P e := by
  unfold updateAll
  simp only []
  suffices haux : ∀ (es : List Elevator) (acc : List Elevator × Env),
      (∀ e ∈ acc.1, P e) → (∀ e ∈ es, P e) →
      ∀ e ∈ (es.foldl (updStep h now) acc).1, P e by
    refine haux w.elevators ([], w.env) ?_ hw
    intro e he
    simp at he
  intro es
  induction es with
  | nil =>
    intro acc hacc _
    exact hacc
  | cons x xs ih =>
    intro acc hacc hes
    simp only [List.foldl_cons]
    refine ih (updStep h now acc x) ?_ ?_
    · intro e he
      unfold updStep at he
      rcases List.mem_append.mp he with h1 | h1
      · exact hacc e h1
      · have hx : e = (update_elevator h now acc.2 x).1 := List.mem_singleton.mp h1
        rw [hx]
        exact hstep acc.2 x (hes x (List.mem_cons_self x xs))
    · intro e he
      exact hes e (List.mem_cons_of_mem x he)

/-- C2: the onboard count never exceeds capacity — the property is preserved
by every full simulation tick (the boarding pass only dequeues while capacity
remains) — and boarding from a queue longer than the remaining capacity
boards exactly `capLeft` passengers and leaves the excess in the queue. -/
theorem capacity_invariant :
    (∀ (h : ℕ) (now : ℚ) (spawns : ℤ → Option ℤ) (w : World),
      (∀ e ∈ w.elevators, e.onboard.length ≤ e.capacity) →
      ∀ e ∈ (tickStep h now spawns w).elevators, e.onboard.length ≤ e.capacity) ∧
    (∀ (now : ℚ) (c : ℕ) (q ob : List Passenger) (st : List ℤ) (ws : ℚ) (wc : ℕ),
      c < q.length →
      (boardLoop now c q ob st ws wc).q.length = q.length - c ∧
      (boardLoop now c q ob st ws wc).q = q.drop c ∧
      (boardLoop now c q ob st ws wc).onboard.length = ob.length + c) := by
  constructor
  · intro h now spawns w hw
    unfold tickStep
    apply updateAll_forall h now (fun e => e.onboard.length ≤ e.capacity)
      (update_elevator_capacity h now)
    refine ListFrame_forall ?_ (ListFrame_dispatch _) ?_
    · intro a b hab hPa
      rw [hab.2.2.2.2.2.2.2.1, hab.2.2.2.2.2.2.2.2.1]
      exact hPa
    · exact hw
  · intro now c q ob st ws wc hlt
    obtain ⟨h1, h2, h3⟩ := boardLoop_spec now c q ob st ws wc
    have hmin : min c q.length = c := by omega
    rw [hmin] at h1 h2 h3
    exact ⟨by rw [h3, List.length_drop], h3, h1⟩

/-- Witness for C2 across a concrete tick and a concrete over-long queue. -/
theorem capacity_invariant_witness :
    (∀ e ∈ (tickStep 0 0 (fun _ => none)
        { env := emptyEnv, elevators := [defaultElevator] }).elevators,
      e.onboard.length ≤ e.capacity) ∧
    (boardLoop 0 2 [defaultPassenger, defaultPassenger, defaultPassenger]
        [] [] 0 0).q.length = 1 := by
  constructor
  · refine capacity_invariant.1 0 0 (fun _ => none)
      { env := emptyEnv, elevators := [defaultElevator] } ?_
    intro e he
    have : e = defaultElevator := List.mem_singleton.mp he
    rw [this]
    norm_num [defaultElevator]
  · exact (capacity_invariant.2 0 2 [defaultPassenger, defaultPassenger, defaultPassenger]
      [] [] 0 0 (by norm_num)).1

-- ---------------------------------------------------------------------------
-- C5: call-latch invariant
-- ---------------------------------------------------------------------------

/-- The latch invariant: a non-empty queue always has its call latch set. -/
def LatchInv (env : Env) : Prop :=
  ∀ f : ℤ, (env.upQ f ≠ [] → env.pendingUpCall f = true) ∧
           (env.downQ f ≠ [] → env.pendingDownCall f = true)

theorem drop_ne_nil {α : Type} (l : List α) (n : ℕ) (h : l.drop n ≠ []) : l ≠ [] := by
  intro hl
  rw [hl] at h
  simp at h

theorem spawnAt_up_fields (now : ℚ) (f dest : ℤ) (env : Env) (hgt : dest > f) :
    (spawnAt now f dest env).upQ =
      Function.update env.upQ f (env.upQ f ++ [make_passenger now f dest]) ∧
    (spawnAt now f dest env).pendingUpCall = Function.update env.pendingUpCall f true ∧
    (spawnAt now f dest env).downQ = env.downQ ∧
    (spawnAt now f dest env).pendingDownCall = env.pendingDownCall := by
  have hdir : (make_passenger now f dest).direction = 1 := by
    unfold make_passenger
    simp [hgt]
  simp only [spawnAt]
  rw [if_pos hdir]
  exact ⟨rfl, rfl, rfl, rfl⟩

theorem spawnAt_down_fields (now : ℚ) (f dest : ℤ) (env : Env) (hngt : ¬ dest > f) :
    (spawnAt now f dest env).downQ =
      Function.update env.downQ f (env.downQ f ++ [make_passenger now f dest]) ∧
    (spawnAt now f dest env).pendingDownCall = Function.update env.pendingDownCall f true ∧
    (spawnAt now f dest env).upQ = env.upQ ∧
    (spawnAt now f dest env).pendingUpCall = env.pendingUpCall := by
  have hdir : ¬ (make_passenger now f dest).direction = 1 := by
    unfold make_passenger
    simp only [if_neg hngt]
    norm_num
  simp only [spawnAt]
  rw [if_neg hdir]
  exact ⟨rfl, rfl, rfl, rfl⟩

theorem spawnAt_latchInv (now : ℚ) (f dest : ℤ) (env : Env) (hI : LatchInv env) :
    LatchInv (spawnAt now f dest env) := by
  by_cases hgt : dest > f
  · obtain ⟨h1, h2, h3, h4⟩ := spawnAt_up_fields now f dest env hgt
    intro g
    rw [h1, h2, h3, h4]
    constructor
    · intro hne
      by_cases hg : g = f
      · subst hg
        rw [Function.update_same]
      · rw [Function.update_noteq hg] at hne ⊢
        exact (hI g).1 hne
    · intro hne
      exact (hI g).2 hne
  · obtain ⟨h1, h2, h3, h4⟩ := spawnAt_down_fields now f dest env hgt
    intro g
    rw [h1, h2, h3, h4]
    constructor
    · intro hne
      exact (hI g).1 hne
    · intro hne
      by_cases hg : g = f
      · subst hg
        rw [Function.update_same]
      · rw [Function.update_noteq hg] at hne ⊢
        exact (hI g).2 hne

theorem generate_traffic_latchInv (now : ℚ) (spawns : ℤ → Option ℤ) (env : Env)
    (hI : LatchInv env) : LatchInv (generate_traffic now spawns env) := by
  unfold generate_traffic
  refine foldl_preserve LatchInv _ _ env ?_ hI
  intro acc f hacc
  cases hsp : spawns f with
  | none => exact hacc
  | some dest => exact spawnAt_latchInv now f dest acc hacc

theorem idleStep_env_fields (h : ℕ) (now : ℚ) (env : Env) (e : Elevator) :
    (idleStep h now env e).2.upQ = env.upQ ∧
    (idleStep h now env e).2.downQ = env.downQ ∧
    (idleStep h now env e).2.pendingUpCall = env.pendingUpCall ∧
    (idleStep h now env e).2.pendingDownCall = env.pendingDownCall := by
  unfold idleStep startMoving
  split
  · cases e.stops with
    | nil =>
      simp only []
      split
      · exact ⟨rfl, rfl, rfl, rfl⟩
      · exact ⟨rfl, rfl, rfl, rfl⟩
    | cons a l =>
      simp only []
      split
      · exact ⟨rfl, rfl, rfl, rfl⟩
      · exact ⟨rfl, rfl, rfl, rfl⟩
  · exact ⟨rfl, rfl, rfl, rfl⟩

theorem movingStep_latchInv (h : ℕ) (now : ℚ) (env : Env) (e : Elevator)
    (hI : LatchInv env) : LatchInv (movingStep h now env e).2 := by
  by_cases ht : e.stateEndTime ≤ now
  · obtain ⟨_, _, _, hq, hqd, hp, hpd, _, _⟩ := movingStep_fields h now env e ht
    have hUdrop := (boardLoop_spec now (e.capacity - (keptOnboard e).length)
      (env.upQ e.targetFloor) (keptOnboard e)
      (e.stops.filter (fun s => s ≠ e.targetFloor)) 0 0).2.2
    have hDdrop := (boardLoop_spec now (arrivalBoardUp now env e).capLeft
      (env.downQ e.targetFloor) (arrivalBoardUp now env e).onboard
      (arrivalBoardUp now env e).stops 0 0).2.2
    intro g
    constructor
    · intro hne
      rw [hq] at hne
      rw [hp]
      by_cases hg : g = e.targetFloor
      · subst hg
        rw [Function.update_same] at hne
        rw [if_neg hne]
        have hAU : (arrivalBoardUp now env e).q =
            List.drop ((e.capacity - (keptOnboard e).length) ⊓ (env.upQ e.targetFloor).length)
              (env.upQ e.targetFloor) := hUdrop
        refine (hI e.targetFloor).1 ?_
        intro hnil
        apply hne
        rw [hAU, hnil, List.drop_nil]
      · rw [Function.update_noteq hg] at hne
        by_cases hqe : (arrivalBoardUp now env e).q = []
        · rw [if_pos hqe, Function.update_noteq hg]
          exact (hI g).1 hne
        · rw [if_neg hqe]
          exact (hI g).1 hne
    · intro hne
      rw [hqd] at hne
      rw [hpd]
      by_cases hg : g = e.targetFloor
      · subst hg
        rw [Function.update_same] at hne
        rw [if_neg hne]
        have hAD : (arrivalBoardDown now env e).q =
            List.drop ((arrivalBoardUp now env e).capLeft ⊓ (env.downQ e.targetFloor).length)
              (env.downQ e.targetFloor) := hDdrop
        refine (hI e.targetFloor).2 ?_
        intro hnil
        apply hne
        rw [hAD, hnil, List.drop_nil]
      · rw [Function.update_noteq hg] at hne
        by_cases hqe : (arrivalBoardDown now env e).q = []
        · rw [if_pos hqe, Function.update_noteq hg]
          exact (hI g).2 hne
        · rw [if_neg hqe]
          exact (hI g).2 hne
  · rw [movingStep_skip h now env e ht]
    exact hI

theorem update_elevator_latchInv (h : ℕ) (now : ℚ) (env : Env) (e : Elevator)
    (hI : LatchInv env) : LatchInv (update_elevator h now env e).2 := by
  unfold update_elevator
  cases e.state with
  | Idle =>
    obtain ⟨h1, h2, h3, h4⟩ := idleStep_env_fields h now env e
    intro g
    rw [h1, h2, h3, h4]
    exact hI g
  | Moving => exact movingStep_latchInv h now env e hI
  | DoorOpen => exact hI

/-- C5: the call-latch invariant — a non-empty `upQ[f]` implies
`pendingUpCall[f]`, and symmetrically for down — is preserved by every full
simulation tick; the traffic generator sets the latch of the queue it
enqueues into, and boarding clears a latch only when that queue has become
empty (the clearing side is the `if (q.empty())` guard embedded in
`movingStep`). -/
theorem latch_invariant :
    (∀ (h : ℕ) (now : ℚ) (spawns : ℤ → Option ℤ) (w : World),
      LatchInv w.env → LatchInv (tickStep h now spawns w).env) ∧
    (∀ (now : ℚ) (f dest : ℤ) (env : Env),
      dest > f → (spawnAt now f dest env).pendingUpCall f = true) ∧
    (∀ (now : ℚ) (f dest : ℤ) (env : Env),
      ¬ dest > f → (spawnAt now f dest env).pendingDownCall f = true) := by
  refine ⟨?_, ?_, ?_⟩
  · intro h now spawns w hI
    unfold tickStep updateAll
    simp only [dispatch_calls_env]
    refine foldl_preserve (fun acc : List Elevator × Env => LatchInv acc.2)
      (updStep h now) _ _ ?_ ?_
    · intro acc e hacc
      exact update_elevator_latchInv h now acc.2 e hacc
    · exact generate_traffic_latchInv now spawns w.env hI
  · intro now f dest env hgt
    rw [(spawnAt_up_fields now f dest env hgt).2.1, Function.update_same]
  · intro now f dest env hngt
    rw [(spawnAt_down_fields now f dest env hngt).2.1, Function.update_same]

/-- Witness for C5: the invariant survives a concrete tick from the empty
world. -/
theorem latch_invariant_witness :
    LatchInv (tickStep 0 0 (fun _ => none)
      { env := emptyEnv, elevators := [defaultElevator] }).env := by
  refine latch_invariant.1 0 0 (fun _ => none) _ ?_
  intro f
  constructor
  · intro hne
    exact absurd rfl hne
  · intro hne
    exact absurd rfl hne

-- ---------------------------------------------------------------------------
-- C1: Idle fallback target selection
-- ---------------------------------------------------------------------------

/-- Floor `f` has at least one waiting passenger (either queue non-empty). -/
def hasWaiting (env : Env) (f : ℤ) : Prop :=
  env.upQ f ≠ [] ∨ env.downQ f ≠ []

theorem mem_floorList {F f : ℤ} : f ∈ floorList F ↔ 1 ≤ f ∧ f ≤ F := by
  constructor
  · intro hf
    obtain ⟨k, hk, hkf⟩ := List.mem_map.mp hf
    rw [List.mem_range] at hk
    have hkf2 : ((k : ℕ) : ℤ) + 1 = f := hkf
    omega
  · rintro ⟨h1, h2⟩
    refine List.mem_map.mpr ⟨(f - 1).toNat, List.mem_range.mpr (by omega), ?_⟩
    show ((f - 1).toNat : ℤ) + 1 = f
    omega

theorem fallbackFold_inv (env : Env) (cur : ℤ) :
    ∀ (l : List ℤ) (acc : ℤ × ℕ),
      (l.foldl (fallbackStep env cur) acc).2 ≤ acc.2 ∧
      (l.foldl (fallbackStep env cur) acc = acc ∨
        ((l.foldl (fallbackStep env cur) acc).1 ∈ l ∧
         hasWaiting env (l.foldl (fallbackStep env cur) acc).1 ∧
         (l.foldl (fallbackStep env cur) acc).2 =
           ((l.foldl (fallbackStep env cur) acc).1 - cur).natAbs ∧
         (l.foldl (fallbackStep env cur) acc).2 < acc.2)) ∧
      (∀ f ∈ l, hasWaiting env f →
        (l.foldl (fallbackStep env cur) acc).2 ≤ (f - cur).natAbs) := by
  intro l
  induction l with
  | nil =>
    intro acc
    refine ⟨le_rfl, Or.inl rfl, ?_⟩
    intro f hf
    simp at hf
  | cons x xs ih =>
    intro acc
    simp only [List.foldl_cons]
    by_cases hw : env.upQ x = [] ∧ env.downQ x = []
    · have hstep : fallbackStep env cur acc x = acc := by
        unfold fallbackStep
        rw [if_pos hw]
      rw [hstep]
      obtain ⟨ih1, ih2, ih3⟩ := ih acc
      refine ⟨ih1, ?_, ?_⟩
      · rcases ih2 with h | h
        · left; exact h
        · right; exact ⟨List.mem_cons_of_mem x h.1, h.2.1, h.2.2.1, h.2.2.2⟩
      · intro f hf hwf
        rcases List.mem_cons.mp hf with rfl | hf2
        · exact absurd hwf (by unfold hasWaiting; tauto)
        · exact ih3 f hf2 hwf
    · have hwx : hasWaiting env x := by
        unfold hasWaiting
        tauto
      by_cases hd : (x - cur).natAbs < acc.2
      · have hstep : fallbackStep env cur acc x = (x, (x - cur).natAbs) := by
          unfold fallbackStep
          rw [if_neg hw, if_pos hd]
        rw [hstep]
        obtain ⟨ih1, ih2, ih3⟩ := ih (x, (x - cur).natAbs)
        refine ⟨le_trans ih1 (le_of_lt hd), ?_, ?_⟩
        · rcases ih2 with h | h
          · right
            rw [h]
            exact ⟨List.mem_cons_self x xs, hwx, rfl, hd⟩
          · right
            exact ⟨List.mem_cons_of_mem x h.1, h.2.1, h.2.2.1, lt_trans h.2.2.2 hd⟩
        · intro f hf hwf
          rcases List.mem_cons.mp hf with rfl | hf2
          · exact ih1
          · exact ih3 f hf2 hwf
      · have hstep : fallbackStep env cur acc x = acc := by
          unfold fallbackStep
          rw [if_neg hw, if_neg hd]
        rw [hstep]
        obtain ⟨ih1, ih2, ih3⟩ := ih acc
        refine ⟨ih1, ?_, ?_⟩
        · rcases ih2 with h | h
          · left; exact h
          · right; exact ⟨List.mem_cons_of_mem x h.1, h.2.1, h.2.2.1, h.2.2.2⟩
        · intro f hf hwf
          rcases List.mem_cons.mp hf with rfl | hf2
          · omega
          · exact ih3 f hf2 hwf

theorem fallback_target (env : Env) (cur : ℤ)
    (hcur1 : 1 ≤ cur) (hcur2 : cur ≤ env.gFloors) (hF : env.gFloors ≤ 900) :
    ((∀ f ∈ floorList env.gFloors, ¬ hasWaiting env f) →
      (fallbackScan env cur).1 = cur) ∧
    (∀ f ∈ floorList env.gFloors, hasWaiting env f →
      hasWaiting env (fallbackScan env cur).1 ∧
      (fallbackScan env cur).1 ∈ floorList env.gFloors ∧
      ∀ g ∈ floorList env.gFloors, hasWaiting env g →
        ((fallbackScan env cur).1 - cur).natAbs ≤ (g - cur).natAbs) := by
  obtain ⟨h1, h2, h3⟩ := fallbackFold_inv env cur (floorList env.gFloors) (cur, 999)
  have hscan : fallbackScan env cur =
      (floorList env.gFloors).foldl (fallbackStep env cur) (cur, 999) := rfl
  constructor
  · intro hnone
    rcases h2 with h | h
    · rw [hscan, h]
    · exact absurd h.2.1 (hnone _ h.1)
  · intro f hf hwf
    have hfb := mem_floorList.mp hf
    have hdist : (f - cur).natAbs < 999 := by omega
    have hlt : ((floorList env.gFloors).foldl (fallbackStep env cur) (cur, 999)).2 < 999 :=
      lt_of_le_of_lt (h3 f hf hwf) hdist
    rcases h2 with h | h
    · rw [h] at hlt
      norm_num at hlt
    · refine ⟨?_, ?_, ?_⟩
      · rw [hscan]; exact h.2.1
      · rw [hscan]; exact h.1
      · intro g hg hwg
        rw [hscan, ← h.2.2.1]
        exact h3 g hg hwg

/-- C1: when Idle fires with an empty stop list (and hence an empty car), the
fallback targets a floor with a waiting passenger at minimal distance
`|f − currentFloor|` over the floors `1..gFloors`; when no floor is waiting
the fallback returns the current floor; and the Idle branch re-arms Idle for
one second when the chosen floor is the current floor, otherwise starts
moving towards the chosen floor. -/
theorem idle_fallback_spec (h : ℕ) (now : ℚ) (env : Env) (e : Elevator)
    (hstate : e.state = EState.Idle) (htime : e.stateEndTime ≤ now)
    (hstops : e.stops = []) (hob : e.onboard = [])
    (hcur1 : 1 ≤ e.currentFloor) (hcur2 : e.currentFloor ≤ env.gFloors)
    (hF : env.gFloors ≤ 900) :
    ((∀ f ∈ floorList env.gFloors, ¬ hasWaiting env f) →
      choose_next_target_fallback env e = e.currentFloor) ∧
    (∀ f ∈ floorList env.gFloors, hasWaiting env f →
      hasWaiting env (choose_next_target_fallback env e) ∧
      choose_next_target_fallback env e ∈ floorList env.gFloors ∧
      ∀ g ∈ floorList env.gFloors, hasWaiting env g →
        (choose_next_target_fallback env e - e.currentFloor).natAbs ≤
          (g - e.currentFloor).natAbs) ∧
    (choose_next_target_fallback env e = e.currentFloor →
      update_elevator h now env e =
        ({ e with direction := 0, stateEndTime := now + 1 }, env)) ∧
    (choose_next_target_fallback env e ≠ e.currentFloor →
      update_elevator h now env e =
        startMoving h now env e (choose_next_target_fallback env e)) := by
  have hch : choose_next_target_fallback env e =
      (fallbackScan env e.currentFloor).1 := by
    unfold choose_next_target_fallback
    rw [hob]
    simp
  have hstep : update_elevator h now env e = idleStep h now env e := by
    unfold update_elevator
    rw [hstate]
  have hidle : idleStep h now env e =
      (if choose_next_target_fallback env e = e.currentFloor then
        ({ e with direction := 0, stateEndTime := now + 1 }, env)
       else startMoving h now env e (choose_next_target_fallback env e)) := by
    unfold idleStep
    rw [if_pos htime, hstops]
  obtain ⟨hf1, hf2⟩ := fallback_target env e.currentFloor hcur1 hcur2 hF
  refine ⟨?_, ?_, ?_, ?_⟩
  · intro hnone
    rw [hch]
    exact hf1 hnone
  · intro f hf hwf
    obtain ⟨g1, g2, g3⟩ := hf2 f hf hwf
    rw [hch]
    exact ⟨g1, g2, g3⟩
  · intro hteq
    rw [hstep, hidle, if_pos hteq]
  · intro htne
    rw [hstep, hidle, if_neg htne]

/-- Witness for C1: in an empty world the idle elevator stays put and re-arms
Idle for one second. -/
theorem idle_fallback_spec_witness :
    update_elevator 0 0 emptyEnv defaultElevator =
      ({ defaultElevator with direction := 0, stateEndTime := 0 + 1 }, emptyEnv) := by
  have h := idle_fallback_spec 0 0 emptyEnv defaultElevator rfl le_rfl rfl rfl
    (by norm_num [defaultElevator]) (by norm_num [defaultElevator, emptyEnv])
    (by norm_num [emptyEnv])
  have hnone : ∀ f ∈ floorList emptyEnv.gFloors, ¬ hasWaiting emptyEnv f := by
    intro f _
    unfold hasWaiting emptyEnv
    simp
  exact h.2.2.1 (h.1 hnone)

-- ---------------------------------------------------------------------------
-- C3: dispatcher selection
-- ---------------------------------------------------------------------------

theorem pickLoop_no_improve (elevs : List Elevator) (callFloor callDir : ℤ)
    (minDist : ℕ) :
    ∀ (l : List (ℕ × ℕ)) (b : ℤ) (c : ℚ),
      (∀ p ∈ l, c ≤ adjustedCost elevs callFloor callDir minDist p) →
      pickLoop elevs callFloor callDir minDist l b c = b := by
  intro l
  induction l with
  | nil =>
    intro b c _
    rfl
  | cons p rest ih =>
    intro b c hall
    simp only [pickLoop]
    rw [if_neg (not_lt.mpr (hall p (List.mem_cons_self p rest)))]
    exact ih b c (fun q hq => hall q (List.mem_cons_of_mem p hq))

theorem pickLoop_improve (elevs : List Elevator) (callFloor callDir : ℤ)
    (minDist : ℕ) :
    ∀ (l : List (ℕ × ℕ)) (b : ℤ) (c : ℚ),
      (∃ p ∈ l, adjustedCost elevs callFloor callDir minDist p < c) →
      ∃ i, i < l.length ∧
        pickLoop elevs callFloor callDir minDist l b c =
          ((l.getD i (0, 0)).2 : ℤ) ∧
        adjustedCost elevs callFloor callDir minDist (l.getD i (0, 0)) < c ∧
        (∀ p ∈ l, adjustedCost elevs callFloor callDir minDist (l.getD i (0, 0)) ≤
          adjustedCost elevs callFloor callDir minDist p) ∧
        (∀ j, j < i →
          adjustedCost elevs callFloor callDir minDist (l.getD i (0, 0)) <
            adjustedCost elevs callFloor callDir minDist (l.getD j (0, 0))) := by
  intro l
  induction l with
  | nil =>
    intro b c hex
    obtain ⟨p, hp, _⟩ := hex
    simp at hp
  | cons p rest ih =>
    intro b c hex
    simp only [pickLoop]
    by_cases hpc : adjustedCost elevs callFloor callDir minDist p < c
    · rw [if_pos hpc]
      by_cases hrest : ∃ q ∈ rest, adjustedCost elevs callFloor callDir minDist q <
          adjustedCost elevs callFloor callDir minDist p
      · obtain ⟨i, hilen, h1, h2, h3, h4⟩ := ih (p.2 : ℤ)
          (adjustedCost elevs callFloor callDir minDist p) hrest
        refine ⟨i + 1, ?_, ?_, ?_, ?_, ?_⟩
        · simp only [List.length_cons]
          omega
        · simpa only [List.getD_cons_succ] using h1
        · simp only [List.getD_cons_succ]
          exact lt_trans h2 hpc
        · intro q hq
          simp only [List.getD_cons_succ]
          rcases List.mem_cons.mp hq with rfl | hq2
          · exact le_of_lt h2
          · exact h3 q hq2
        · intro j hj
          cases j with
          | zero =>
            simp only [List.getD_cons_succ, List.getD_cons_zero]
            exact h2
          | succ j2 =>
            simp only [List.getD_cons_succ]
            exact h4 j2 (by omega)
      · push_neg at hrest
        rw [pickLoop_no_improve elevs callFloor callDir minDist rest (p.2 : ℤ)
          (adjustedCost elevs callFloor callDir minDist p) hrest]
        refine ⟨0, ?_, ?_, ?_, ?_, ?_⟩
        · simp
        · simp only [List.getD_cons_zero]
        · simpa only [List.getD_cons_zero] using hpc
        · intro q hq
          simp only [List.getD_cons_zero]
          rcases List.mem_cons.mp hq with rfl | hq2
          · exact le_rfl
          · exact hrest q hq2
        · intro j hj
          exact absurd hj (Nat.not_lt_zero j)
    · rw [if_neg hpc]
      have hrest : ∃ q ∈ rest, adjustedCost elevs callFloor callDir minDist q < c := by
        obtain ⟨q, hq, hqc⟩ := hex
        rcases List.mem_cons.mp hq with rfl | hq2
        · exact absurd hqc hpc
        · exact ⟨q, hq2, hqc⟩
      obtain ⟨i, hilen, h1, h2, h3, h4⟩ := ih b c hrest
      refine ⟨i + 1, ?_, ?_, ?_, ?_, ?_⟩
      · simp only [List.length_cons]
        omega
      · simpa only [List.getD_cons_succ] using h1
      · simpa only [List.getD_cons_succ] using h2
      · intro q hq
        simp only [List.getD_cons_succ]
        rcases List.mem_cons.mp hq with rfl | hq2
        · exact le_of_lt (lt_of_lt_of_le h2 (not_lt.mp hpc))
        · exact h3 q hq2
      · intro j hj
        cases j with
        | zero =>
          simp only [List.getD_cons_succ, List.getD_cons_zero]
          exact lt_of_lt_of_le h2 (not_lt.mp hpc)
        | succ j2 =>
          simp only [List.getD_cons_succ]
          exact h4 j2 (by omega)

theorem sortedByDist_head_min (elevs : List Elevator) (callFloor : ℤ) :
    ∀ p ∈ byDistList elevs callFloor, minDistOf elevs callFloor ≤ p.1 := by
  intro p hp
  have hmem : p ∈ sortedByDist elevs callFloor := by
    unfold sortedByDist
    exact (List.perm_insertionSort pairLe _).mem_iff.mpr hp
  have hsorted : List.Sorted pairLe (sortedByDist elevs callFloor) := by
    unfold sortedByDist
    exact List.sorted_insertionSort pairLe _
  unfold minDistOf
  cases hs : sortedByDist elevs callFloor with
  | nil =>
    rw [hs] at hmem
    simp at hmem
  | cons a l =>
    rw [hs] at hmem hsorted
    rcases List.mem_cons.mp hmem with rfl | hmem2
    · simp
    · have hrel := List.rel_of_sorted_cons hsorted p hmem2
      unfold pairLe at hrel
      simp only [List.headD_cons]
      omega

theorem sortedByDist_length (elevs : List Elevator) (callFloor : ℤ) :
    (sortedByDist elevs callFloor).length = elevs.length := by
  unfold sortedByDist
  rw [List.length_insertionSort]
  unfold byDistList
  simp

theorem nearestK_ne_nil (elevs : List Elevator) (callFloor : ℤ)
    (hne : elevs ≠ []) : nearestK elevs callFloor ≠ [] := by
  unfold nearestK
  have hlen := sortedByDist_length elevs callFloor
  have hpos : 0 < elevs.length := List.length_pos.mpr hne
  intro hnil
  have hlen2 := congrArg List.length hnil
  rw [List.length_take] at hlen2
  simp only [List.length_nil] at hlen2
  omega

/-- C3: the hybrid dispatcher's cost is exactly the specified weighted sum;
the sorted distance list is sorted with its head distance minimal over all
elevators; the selected elevator is a member of the nearest-`min(2,N)`
candidate set minimizing the bonus-adjusted cost, with cost ties resolved to
the earlier candidate in sorted order; and the per-call assignment appends
the call floor to the winner's stops, deduplicated. -/
theorem dispatcher_selection (elevs : List Elevator) (f d : ℤ)
    (hne : elevs ≠ [])
    (hbound : ∀ p ∈ nearestK elevs f,
      adjustedCost elevs f d (minDistOf elevs f) p < 10 ^ 18) :
    (∀ el : Elevator, leastCostScore el f d =
      1.8 * (((el.currentFloor - f).natAbs : ℚ) * 7.5) +
      1.3 * (if (el.direction = 1 ∧ d = -1) ∨ (el.direction = -1 ∧ d = 1)
             then 14.0 else 0.0) +
      1.4 * ((el.stops.length : ℚ) * 18.0) +
      0.8 * (if el.stops ≠ [] then 6.0 else 0.0)) ∧
    List.Sorted pairLe (sortedByDist elevs f) ∧
    (∀ p ∈ byDistList elevs f, minDistOf elevs f ≤ p.1) ∧
    (∃ i, i < (nearestK elevs f).length ∧
      assignLeastCostHybrid elevs f d = (((nearestK elevs f).getD i (0, 0)).2 : ℤ) ∧
      (∀ p ∈ nearestK elevs f,
        adjustedCost elevs f d (minDistOf elevs f) ((nearestK elevs f).getD i (0, 0)) ≤
          adjustedCost elevs f d (minDistOf elevs f) p) ∧
      (∀ j, j < i →
        adjustedCost elevs f d (minDistOf elevs f) ((nearestK elevs f).getD i (0, 0)) <
          adjustedCost elevs f d (minDistOf elevs f) ((nearestK elevs f).getD j (0, 0)))) ∧
    assignCall elevs f d =
      elevs.set (assignLeastCostHybrid elevs f d).toNat
        (addStopDedup (elevs.getD (assignLeastCostHybrid elevs f d).toNat
          defaultElevator) f) := by
  have hKne := nearestK_ne_nil elevs f hne
  obtain ⟨p0, hp0⟩ := List.exists_mem_of_ne_nil _ hKne
  have hex : ∃ p ∈ nearestK elevs f,
      adjustedCost elevs f d (minDistOf elevs f) p < 10 ^ 18 :=
    ⟨p0, hp0, hbound p0 hp0⟩
  obtain ⟨i, hilen, h1, h2, h3, h4⟩ :=
    pickLoop_improve elevs f d (minDistOf elevs f) (nearestK elevs f) (-1) (10 ^ 18) hex
  have hassign : assignLeastCostHybrid elevs f d =
      (((nearestK elevs f).getD i (0, 0)).2 : ℤ) := h1
  refine ⟨?_, ?_, sortedByDist_head_min elevs f, ⟨i, hilen, hassign, h3, h4⟩, ?_⟩
  · intro el
    unfold leastCostScore travel_time_sec
    norm_num
  · unfold sortedByDist
    exact List.sorted_insertionSort pairLe _
  · unfold assignCall
    rw [if_neg]
    rw [hassign]
    exact not_lt.mpr (Int.ofNat_nonneg _)

/-- Witness for C3 on a single concrete elevator: the call is assigned to it
with the floor pushed onto its stops. -/
theorem dispatcher_selection_witness :
    assignCall [defaultElevator] 1 1 =
      [defaultElevator].set (assignLeastCostHybrid [defaultElevator] 1 1).toNat
        (addStopDedup ([defaultElevator].getD
          (assignLeastCostHybrid [defaultElevator] 1 1).toNat defaultElevator) 1) := by
  refine (dispatcher_selection [defaultElevator] 1 1 (by simp) ?_).2.2.2.2
  intro p hp
  have hp2 : p = (0, 0) := by
    simpa [nearestK, sortedByDist, byDistList, List.insertionSort,
      List.orderedInsert, defaultElevator] using hp
  subst hp2
  norm_num [adjustedCost, minDistOf, sortedByDist, byDistList, List.insertionSort,
    List.orderedInsert, defaultElevator, leastCostScore, travel_time_sec]

end ElevatorSim
